import Mathlib

/-!
Verification development for the target-expansion and probing engine of the
`gxr` repository (`src/utils.rs`, `src/commands/net/ping.rs`).

The Rust code is shallowly embedded: strings are Lean `String`s (segmentation
and scanning work on the underlying `List Char`, which agrees with Rust's
byte-position splitting because every split position used by the code is a
character boundary), `u32` values are `Nat` with explicit `% 2^32` where a
wrap can occur, fallible functions return `Except`/`Option`, and the two
debug-build arithmetic-overflow panics reachable in `parse_cidr` are made
explicit as dedicated error values (`panicAddOverflow`, `panicSubOverflow`).
Floating-point latencies are represented as exact rationals: the numeric
literals consumed by `extract_response_time` are plain decimal strings, whose
`f64` value is the rounding of the rational modelled here, and every property
proved about them (sign, presence) is rounding-invariant.
-/

namespace Gxr

/-! ### Character-level helpers shared by the parsers -/

/-- ASCII whitespace recognised by `trimChars`; covers every character the
code's inputs can contain that Rust's `str::trim` would strip. -/
def isWsChar (c : Char) : Bool :=
  c = ' ' || c = '\t' || c = '\n' || c = '\r'

/-- Model of Rust `str::trim`: drop leading and trailing whitespace. -/
def trimChars (l : List Char) : List Char :=
  ((l.dropWhile isWsChar).reverse.dropWhile isWsChar).reverse

/-- Model of Rust `str::split(sep)` for a one-character separator: splitting
the empty string yields `[[]]`, and separators at the ends yield empty
segments, exactly as in Rust. -/
def splitChar (sep : Char) : List Char → List (List Char)
  | [] => [[]]
  | c :: cs =>
    if c = sep then [] :: splitChar sep cs
    else
      match splitChar sep cs with
      | s :: rest => (c :: s) :: rest
      | [] => [[c]]

/-- Model of Rust `str::rfind(c)`: index of the last occurrence of `c`. -/
def lastIdxOf (c : Char) : List Char → Option Nat
  | [] => none
  | x :: xs =>
    match lastIdxOf c xs with
    | some i => some (i + 1)
    | none => if x = c then some 0 else none

/-- Model of Rust `str::find(pat)` for a string pattern: index of the first
position where `pat` occurs as a contiguous sublist. -/
def findSub (hay pat : List Char) : Option Nat :=
  if pat.isPrefixOf hay then some 0
  else
    match hay with
    | [] => none
    | _ :: t => (findSub t pat).map (· + 1)

/-- Model of Rust `str::contains(pat)`. -/
def containsSub (hay pat : List Char) : Bool :=
  (findSub hay pat).isSome

/-- ASCII lowering of one character; agrees with Rust `to_lowercase` on all
characters occurring in probe output (ASCII letters are lowered, CJK and
other characters are fixed points of both functions). -/
def lowerChar (c : Char) : Char :=
  if 65 ≤ c.toNat ∧ c.toNat ≤ 90 then Char.ofNat (c.toNat + 32) else c

/-- Model of Rust `str::to_lowercase` on the relevant alphabet. -/
def lowerStr (l : List Char) : List Char :=
  l.map lowerChar

/-! ### Decimal parsing helpers (`u8::from_str`, IPv4 octets) -/

/-- Value of a list of ASCII digits, most significant first. -/
def digitsToNat (l : List Char) : Nat :=
  l.foldl (fun a c => a * 10 + (c.toNat - 48)) 0

/-- A nonempty all-digit run parsed to its value; `none` otherwise. -/
def parseNatDigits (l : List Char) : Option Nat :=
  if l ≠ [] ∧ l.all Char.isDigit then some (digitsToNat l) else none

/-- Model of Rust `str::parse::<u8>()`: an optional leading `+`, then a
nonempty digit run whose value fits in eight bits. -/
def parseU8 (l : List Char) : Option Nat :=
  let body := match l with
    | '+' :: rest => rest
    | _ => l
  match parseNatDigits body with
  | some v => if v ≤ 255 then some v else none
  | none => none

/-- Model of one dotted-quad group as accepted by Rust
`Ipv4Addr::from_str`: a nonempty digit run, no leading zero unless the
group is exactly `0`, value at most 255. -/
def parseOctet (l : List Char) : Option Nat :=
  match l with
  | [] => none
  | c :: rest =>
    if (c :: rest).all Char.isDigit then
      if c = '0' ∧ rest ≠ [] then none
      else
        let v := digitsToNat (c :: rest)
        if v ≤ 255 then some v else none
    else none

/-- Model of Rust `Ipv4Addr::from_str`: exactly four octets separated by
dots, returned as the octet quadruple. -/
def ipv4FromStr (l : List Char) : Option (Nat × Nat × Nat × Nat) :=
  match splitChar '.' l with
  | [p1, p2, p3, p4] =>
    match parseOctet p1, parseOctet p2, parseOctet p3, parseOctet p4 with
    | some a, some b, some c, some d => some (a, b, c, d)
    | _, _, _, _ => none
  | _ => none

/-- Model of Rust `u32::from(ip)`: big-endian octet value. -/
def ipVal (a b c d : Nat) : Nat :=
  ((a * 256 + b) * 256 + c) * 256 + d

/-- Model of Rust `Ipv4Addr::new(a,b,c,d).to_string()`. -/
def ipToString4 (a b c d : Nat) : String :=
  toString a ++ "." ++ toString b ++ "." ++ toString c ++ "." ++ toString d

/-- Model of `Ipv4Addr::from(n).to_string()` for a `u32` value `n`:
big-endian octets rendered as a dotted quad. -/
def ipToString (n : Nat) : String :=
  ipToString4 (n / 2 ^ 24 % 256) (n / 2 ^ 16 % 256) (n / 2 ^ 8 % 256) (n % 256)

/-! ### Errors of target expansion (`utils.rs`)

The Rust code reports errors as strings; each distinct message becomes one
constructor.  The two `panic` constructors stand for the debug-build
arithmetic-overflow panics in `parse_cidr` (in release builds the same
expressions wrap, which is equally far from the documented behaviour). -/

inductive TargetErr where
  /-- "无效的CIDR格式: …" — the segment does not split as `ip/len`. -/
  | invalidCidrFormat
  /-- "CIDR中的IP地址无效: …" -/
  | invalidCidrIp
  /-- "无效的子网掩码长度: …" -/
  | invalidMaskLen
  /-- "子网掩码长度不能超过32" -/
  | maskTooLong
  /-- "CIDR … 没有可用的主机IP" -/
  | noUsableHosts
  /-- debug-build panic: `network_int + 1` overflows `u32` (network is `u32::MAX`). -/
  | panicAddOverflow
  /-- debug-build panic: `broadcast_int - 1` underflows `u32` (broadcast is `0`). -/
  | panicSubOverflow
  /-- "无效的IP范围格式: …" — no dash found. -/
  | invalidRangeFormat
  /-- "无效的起始IP地址: …" -/
  | invalidBaseIp
  /-- "IP范围结束值无效: …" -/
  | invalidRangeEnd
  /-- "IP范围结束值(…)必须大于或等于起始值(…)" -/
  | rangeEndLessThanStart
  /-- "无效的IP地址: …" — a plain segment is not a dotted quad. -/
  | invalidIp
  /-- "未解析到任何有效的IP地址" -/
  | noValidIp
deriving DecidableEq, Repr

/-! ### CIDR expansion (`parse_cidr`, utils.rs lines 209-263) -/

/-- `u32::MAX`. -/
def u32max : Nat := 4294967295

/-- The subnet mask of a prefix length, as computed by the source:
`0` for prefix `0`, else `u32::MAX << (32 - len)` truncated to 32 bits. -/
def maskOf (plen : Nat) : Nat :=
  if plen = 0 then 0 else (u32max <<< (32 - plen)) % 2 ^ 32

/-- `network_int = ip_int & mask`. -/
def netAddr (ip plen : Nat) : Nat :=
  ip &&& maskOf plen

/-- `broadcast_int = network_int | !mask` (`!` on `u32` is xor with all ones). -/
def bcastAddr (ip plen : Nat) : Nat :=
  netAddr ip plen ||| (u32max ^^^ maskOf plen)

/-- Fuel-indexed unfolding of the `while current_int < broadcast_int` loop. -/
def pushHostsAux : Nat → Nat → List Nat
  | 0, _ => []
  | fuel + 1, cur => cur :: pushHostsAux fuel (cur + 1)

/-- The host values pushed by the loop: `cur, cur+1, …, bcast-1`. -/
def pushHosts (cur bcast : Nat) : List Nat :=
  pushHostsAux (bcast - cur) cur

/-- The arithmetic core of `parse_cidr`, after the segment has been split
and parsed: mask, network and broadcast computation, the `/31`–`/32` guard,
and the host enumeration loop.  The source computes `network_int + 1` and
`broadcast_int - 1` on `u32`; the two cases where those expressions
overflow are surfaced as panic errors. -/
def cidrHostsCore (ip plen : Nat) : Except TargetErr (List String) :=
  let network := netAddr ip plen
  let broadcast := bcastAddr ip plen
  if network = u32max then .error .panicAddOverflow
  else if broadcast = 0 then .error .panicSubOverflow
  else if broadcast - 1 ≤ network then .error .noUsableHosts
  else .ok ((pushHosts (network + 1) broadcast).map ipToString)

/-- Model of `parse_cidr` (utils.rs): split on `/` into exactly two parts,
parse the address and the prefix length, reject lengths above 32, then run
the arithmetic core. -/
def parse_cidr (cidr : String) : Except TargetErr (List String) :=
  match splitChar '/' cidr.data with
  | [ipChars, plenChars] =>
    match ipv4FromStr ipChars with
    | none => .error .invalidCidrIp
    | some (a, b, c, d) =>
      match parseU8 plenChars with
      | none => .error .invalidMaskLen
      | some plen =>
        if 32 < plen then .error .maskTooLong
        else cidrHostsCore (ipVal a b c d) plen
  | _ => .error .invalidCidrFormat

/-- The successful parsing front-end of `parse_cidr`: the `(u32, prefix)`
pair reached by the arithmetic core, if any. -/
def cidrParse (s : String) : Option (Nat × Nat) :=
  match splitChar '/' s.data with
  | [ipChars, plenChars] =>
    match ipv4FromStr ipChars, parseU8 plenChars with
    | some (a, b, c, d), some plen =>
      if plen ≤ 32 then some (ipVal a b c d, plen) else none
    | _, _ => none
  | _ => none

/-! ### Range expansion (`parse_ip_range`, utils.rs lines 273-304) -/

/-- Model of `parse_ip_range`: split at the last `-`, parse the trimmed
left side as the base address and the trimmed right side as a `u8` end
octet, reject ends below the base's fourth octet, and enumerate the fourth
octet from base to end inclusive. -/
def parse_ip_range (rangeStr : String) : Except TargetErr (List String) :=
  match lastIdxOf '-' rangeStr.data with
  | none => .error .invalidRangeFormat
  | some dashPos =>
    match ipv4FromStr (trimChars (rangeStr.data.take dashPos)) with
    | none => .error .invalidBaseIp
    | some (a, b, c, d) =>
      match parseU8 (trimChars ((rangeStr.data.drop dashPos).drop 1)) with
      | none => .error .invalidRangeEnd
      | some endLast =>
        if endLast < d then .error .rangeEndLessThanStart
        else .ok (((List.range (endLast + 1 - d)).map (d + ·)).map
          (fun i => ipToString4 a b c i))

/-! ### Target specification expansion (`parse_targets`, utils.rs 169-199) -/

/-- One trimmed, nonempty comma segment of `parse_targets`: CIDR if it
contains `/`, else a range if it contains `-`, else a single validated
address pushed verbatim. -/
def expandSegment (t : List Char) : Except TargetErr (List String) :=
  if containsSub t ['/'] then parse_cidr (String.mk t)
  else if containsSub t ['-'] then parse_ip_range (String.mk t)
  else
    match ipv4FromStr t with
    | some _ => .ok [String.mk t]
    | none => .error .invalidIp

/-- The loop body of `parse_targets`: expand each segment in order,
propagating the first error and concatenating the successes. -/
def expandAll : List (List Char) → Except TargetErr (List String)
  | [] => .ok []
  | t :: ts =>
    match expandSegment t with
    | .error e => .error e
    | .ok l =>
      match expandAll ts with
      | .error e => .error e
      | .ok rest => .ok (l ++ rest)

/-- The trimmed, nonempty comma segments of a target specification. -/
def segmentsOf (s : String) : List (List Char) :=
  ((splitChar ',' s.data).map trimChars).filter (· ≠ [])

/-- Model of `parse_targets`: expand every segment, fail on an empty
overall result. -/
def parse_targets (targets : String) : Except TargetErr (List String) :=
  match expandAll (segmentsOf targets) with
  | .error e => .error e
  | .ok allIps => if allIps = [] then .error .noValidIp else .ok allIps

/-! ### Latency extraction (`extract_response_time`, ping.rs lines 354-395)

The raw probe output is modelled as its decoded text (`from_utf8_lossy`),
and `f64` values as exact rationals of the decimal literals involved. -/

/-- The time markers scanned for, in source order: `time=`, `时间=`,
`latency=`. -/
def timeMarkers : List (List Char) :=
  ["time=".data, "时间=".data, "latency=".data]

/-- The marker loop of `extract_response_time`: the first marker of the
list that occurs anywhere in the text wins, and the scan position is the
end of its first occurrence. -/
def firstMarkerEnd (cs : List Char) : List (List Char) → Option Nat
  | [] => none
  | m :: ms =>
    match findSub cs m with
    | some p => some (p + m.length)
    | none => firstMarkerEnd cs ms

/-- Characters that may start or continue the numeric literal:
ASCII digits, `.` and `-`. -/
def isNumTokenChar (c : Char) : Bool :=
  c.isDigit || c = '.' || c = '-'

/-- The exact value of a decimal literal as parsed by `f64::from_str`:
`(-1)^neg * num / 10^scale`.  The `f64` the source manipulates is this
rational rounded to the nearest double; every property proved here (sign,
presence, the test vectors' values) is invariant under that rounding. -/
structure DecLit where
  neg : Bool
  num : Nat
  scale : Nat
deriving DecidableEq, Repr

/-- The rational value of a parsed decimal literal. -/
def DecLit.toRat (d : DecLit) : ℚ :=
  (if d.neg then -1 else 1) * (d.num : ℚ) / 10 ^ d.scale

/-- Model of `f64::from_str` on an unsigned literal over the alphabet
digits/`.`: a digit run, optionally followed by `.` and a digit run, with
at least one digit overall.  Returns the value as (numerator, scale). -/
def parseUnsignedDec (cs : List Char) : Option (Nat × Nat) :=
  let intPart := cs.takeWhile Char.isDigit
  let rest := cs.dropWhile Char.isDigit
  match rest with
  | [] => if intPart = [] then none else some (digitsToNat intPart, 0)
  | '.' :: frac =>
    if frac.all Char.isDigit ∧ (intPart ≠ [] ∨ frac ≠ []) then
      some (digitsToNat intPart * 10 ^ frac.length + digitsToNat frac, frac.length)
    else none
  | _ => none

/-- Model of `str::parse::<f64>()` restricted to the alphabet the literal
can contain (digits, `.`, `-`): an optional leading minus, then an
unsigned decimal.  Further dashes or dots make the parse fail, as in Rust. -/
def parseF64 (cs : List Char) : Option DecLit :=
  match cs with
  | '-' :: rest => (parseUnsignedDec rest).map (fun p => ⟨true, p.1, p.2⟩)
  | _ => (parseUnsignedDec cs).map (fun p => ⟨false, p.1, p.2⟩)

/-- The source's `time >= 0.0` filter on the parsed value, decided on the
literal: an `f64` parsed from such a literal is `≥ 0.0` exactly when the
literal is unsigned or denotes zero (`-0.0 >= 0.0` holds in IEEE). -/
def DecLit.nonneg (d : DecLit) : Bool :=
  d.neg = false ∨ d.num = 0

/-- Model of `extract_response_time`: lower-case the decoded output, find
the first time marker, find the first numeric-token character after it,
take the maximal numeric-token run as the literal, parse it, and discard
negative values. -/
def extract_response_time (output : String) : Option DecLit :=
  let outLower := lowerStr output.data
  match firstMarkerEnd outLower timeMarkers with
  | none => none
  | some pos =>
    let timePart := outLower.drop pos
    match timePart.findIdx? isNumTokenChar with
    | none => none
    | some numStart =>
      let numStr := (timePart.drop numStart).takeWhile isNumTokenChar
      match parseF64 numStr with
      | some t => if t.nonneg then some t else none
      | none => none

/-! ### Probe executor (`ping_ip_async`, ping.rs lines 247-344) -/

/-- The two platform families of the source (`cfg!(target_os = "windows")`). -/
inductive Platform where
  | windows
  | linux
deriving DecidableEq

/-- The inter-attempt backoff in milliseconds: 200 on Windows, 100 elsewhere. -/
def backoffMs : Platform → Nat
  | .windows => 200
  | .linux => 100

/-- The Windows success keywords (Chinese and English), in source order. -/
def successKeywords : List (List Char) :=
  ["回复".data, "来自".data, "reply from".data, "ttl=".data, "bytes=".data, "time=".data]

/-- Success detection for one attempt's output: keyword match on the
lower-cased decoded stdout on Windows, the command's exit status elsewhere. -/
def classifyOutput (plat : Platform) (stdout : String) (exitSuccess : Bool) : Bool :=
  match plat with
  | .windows => successKeywords.any (fun kw => containsSub (lowerStr stdout.data) kw)
  | .linux => exitSuccess

/-- Result of one address's probe sequence (`PingResult` in ping.rs);
the status strings are the source's. -/
structure PingResult where
  ip : String
  status : String
  response_time : Option DecLit
deriving DecidableEq

/-- `PingResult::success`. -/
def PingResult.success (ip : String) (rt : Option DecLit) : PingResult :=
  ⟨ip, "成功", rt⟩

/-- `PingResult::failure`. -/
def PingResult.failure (ip : String) : PingResult :=
  ⟨ip, "失败", none⟩

/-- `PingResult::is_success`. -/
def PingResult.is_success (r : PingResult) : Bool :=
  r.status = "成功"

/-- What one invocation of the external ping utility produced: a spawn
error (`Err` from `Command::output`), or the process's decoded stdout and
exit-status verdict. -/
inductive AttemptOutcome where
  | spawnError
  | output (stdout : String) (exitSuccess : Bool)

/-- The classification of one attempt outcome as the executor sees it. -/
inductive AttemptKind where
  | spawnErr
  | ok
  | fail
deriving DecidableEq

/-- How `ping_ip_async` reacts to one attempt outcome on a platform. -/
def attemptKind (plat : Platform) : AttemptOutcome → AttemptKind
  | .spawnError => .spawnErr
  | .output s e => if classifyOutput plat s e then .ok else .fail

/-- Observable scheduling events of the retry loop: one `invoke` per
invocation of the external utility, one `sleep` per inter-attempt backoff. -/
inductive PingEvent where
  | invoke
  | sleep (ms : Nat)
deriving DecidableEq

/-- One iteration of the retry loop of `ping_ip_async`, given the outcome
of this attempt's invocation, the remaining fuel after this attempt, and
the result of the rest of the loop.  A success returns immediately with
the extracted latency; a spawn error breaks out of the loop to the final
failure; a failed non-final attempt (positive remaining fuel) sleeps the
backoff and continues; a failed final attempt falls through to failure
with no trailing sleep. -/
def pingAttempt (plat : Platform) (ip : String) (out : AttemptOutcome) (fuel : Nat)
    (next : PingResult × List PingEvent) : PingResult × List PingEvent :=
  match out with
  | .spawnError => (PingResult.failure ip, [.invoke])
  | .output stdout exitOk =>
    if classifyOutput plat stdout exitOk then
      (PingResult.success ip (extract_response_time stdout), [.invoke])
    else
      match fuel with
      | 0 => (PingResult.failure ip, [.invoke])
      | _ + 1 => (next.1, .invoke :: .sleep (backoffMs plat) :: next.2)

/-- The `for attempt in 1..=count` retry loop of `ping_ip_async`, with the
environment's responses supplied by the oracle `o` (attempt number to
outcome) and the remaining number of attempts as structural fuel
(`fuel = count + 1 - attempt` on entry to each iteration). -/
def pingLoopF (plat : Platform) (ip : String) (o : Nat → AttemptOutcome) :
    Nat → Nat → PingResult × List PingEvent
  | 0, _ => (PingResult.failure ip, [])
  | fuel + 1, attempt =>
    pingAttempt plat ip (o attempt) fuel (pingLoopF plat ip o fuel (attempt + 1))

/-- Model of `ping_ip_async ip timeout count`: run the retry loop from
attempt 1 with `count` attempts of fuel. -/
def ping_ip_async (plat : Platform) (ip : String) (count : Nat)
    (o : Nat → AttemptOutcome) : PingResult × List PingEvent :=
  pingLoopF plat ip o count 1

/-- Number of utility invocations in an event trace. -/
def countInvoke (ev : List PingEvent) : Nat :=
  (ev.filter (fun e => e = PingEvent.invoke)).length

/-! ### Scheduler admission model (`ping_concurrent_async`, ping.rs 188-233)

The semaphore discipline of the scheduler: the driving loop acquires one
permit (`sem.acquire_owned`) before spawning each probe task, and the task
drops its permit exactly once, when its attempts and the result append
complete.  The states count addresses not yet admitted, tasks holding a
permit, and completed tasks; identities of addresses and outcomes do not
affect admission and are abstracted away. -/

structure SchedState where
  notStarted : Nat
  inFlight : Nat
  completed : Nat
deriving DecidableEq

/-- One scheduler transition: `start` models `acquire_owned` (which only
completes while fewer than `limit` permits are out) followed by
`tokio::spawn`; `finish` models a spawned task completing and dropping
its permit. -/
inductive SchedStep (limit : Nat) : SchedState → SchedState → Prop where
  | start (n f c : Nat) : f < limit → SchedStep limit ⟨n + 1, f, c⟩ ⟨n, f + 1, c⟩
  | finish (n f c : Nat) : SchedStep limit ⟨n, f + 1, c⟩ ⟨n, f, c + 1⟩

/-- States reachable by a run over `total` addresses with ceiling `limit`. -/
inductive SchedReach (limit total : Nat) : SchedState → Prop where
  | init : SchedReach limit total ⟨total, 0, 0⟩
  | step {s t : SchedState} :
      SchedReach limit total s → SchedStep limit s t → SchedReach limit total t

/-! ## Theorems -/

/-- Claim C4: for every range segment whose left side of the last dash is a
valid dotted quad `a.b.c.d` and whose right side parses as a decimal octet
`e` with `d ≤ e`, `parse_ip_range` produces exactly the addresses with
fourth octet `d` through `e` inclusive, in that order, holding the first
three octets fixed; in particular `"10.0.0.1-5"` expands to exactly
`[10.0.0.1, 10.0.0.2, 10.0.0.3, 10.0.0.4, 10.0.0.5]`. -/
theorem range_expansion_correct :
    (∀ (s : String) (i a b c d e : Nat),
      lastIdxOf '-' s.data = some i →
      ipv4FromStr (trimChars (s.data.take i)) = some (a, b, c, d) →
      parseU8 (trimChars ((s.data.drop i).drop 1)) = some e →
      d ≤ e →
      parse_ip_range s =
        .ok (((List.range (e + 1 - d)).map (d + ·)).map (fun j => ipToString4 a b c j)))
    ∧ parse_ip_range "10.0.0.1-5" =
        .ok ["10.0.0.1", "10.0.0.2", "10.0.0.3", "10.0.0.4", "10.0.0.5"] := by
  refine ⟨?_, rfl⟩
  intro s i a b c d e hdash hbase hend hde
  simp only [parse_ip_range, hdash, hbase, hend]
  rw [if_neg (by omega)]

/-- Witness for C4 at the concrete segment `"10.0.0.1-5"`. -/
theorem range_expansion_correct_witness :
    parse_ip_range "10.0.0.1-5" =
      .ok (((List.range (5 + 1 - 1)).map (1 + ·)).map (fun j => ipToString4 10 0 0 j)) :=
  range_expansion_correct.1 "10.0.0.1-5" 8 10 0 0 1 5 (by decide) (by decide) (by decide)
    (by decide)

/-- Claim C5: a range segment with a valid base address and a valid decimal
end octet strictly below the base's fourth octet fails with the
invalid-range error and produces no address list. -/
theorem range_end_less_error (s : String) (i a b c d e : Nat)
    (hdash : lastIdxOf '-' s.data = some i)
    (hbase : ipv4FromStr (trimChars (s.data.take i)) = some (a, b, c, d))
    (hend : parseU8 (trimChars ((s.data.drop i).drop 1)) = some e)
    (hlt : e < d) :
    parse_ip_range s = .error .rangeEndLessThanStart := by
  simp only [parse_ip_range, hdash, hbase, hend]
  rw [if_pos hlt]

/-- Witness for C5 at the concrete segment `"10.0.0.5-3"`. -/
theorem range_end_less_error_witness :
    parse_ip_range "10.0.0.5-3" = .error .rangeEndLessThanStart :=
  range_end_less_error "10.0.0.5-3" 8 10 0 0 5 3 (by decide) (by decide) (by decide) (by decide)

/-- The host-enumeration loop lists `cur, cur+1, …` for `fuel` steps. -/
theorem pushHostsAux_eq (fuel : Nat) : ∀ cur : Nat,
    pushHostsAux fuel cur = (List.range fuel).map (cur + ·) := by
  induction fuel with
  | zero => intro cur; rfl
  | succ f ih =>
    intro cur
    rw [pushHostsAux, ih, List.range_succ_eq_map]
    simp only [List.map_cons, Nat.add_zero, List.map_map]
    have hfun : ((fun x => cur + x) ∘ Nat.succ) = fun x => cur + 1 + x := by
      funext i
      simp only [Function.comp_apply, Nat.succ_eq_add_one]
      omega
    rw [hfun]

/-- The mask of the source in closed form: the high `plen` bits set. -/
theorem maskOf_eq (plen : Nat) (h : plen ≤ 32) :
    maskOf plen = 2 ^ 32 - 2 ^ (32 - plen) := by
  unfold maskOf
  by_cases h0 : plen = 0
  · subst h0; simp
  · rw [if_neg h0, Nat.shiftLeft_eq]
    have hK : 2 ^ (32 - plen) ≤ 2 ^ 32 := Nat.pow_le_pow_right (by norm_num) (by omega)
    have h1 : 1 ≤ 2 ^ (32 - plen) := Nat.one_le_two_pow
    have hMK : 2 ^ 32 ≤ 2 ^ 32 * 2 ^ (32 - plen) := Nat.le_mul_of_pos_right _ (by omega)
    have e1 : u32max * 2 ^ (32 - plen) =
        2 ^ 32 * (2 ^ (32 - plen) - 1) + (2 ^ 32 - 2 ^ (32 - plen)) := by
      have e2 : 2 ^ 32 * (2 ^ (32 - plen) - 1) = 2 ^ 32 * 2 ^ (32 - plen) - 2 ^ 32 := by
        rw [Nat.mul_sub, Nat.mul_one]
      have e3 : u32max * 2 ^ (32 - plen) = 2 ^ 32 * 2 ^ (32 - plen) - 2 ^ (32 - plen) := by
        show (2 ^ 32 - 1) * 2 ^ (32 - plen) = _
        rw [Nat.sub_mul, Nat.one_mul]
      rw [e2, e3]
      omega
    rw [e1, Nat.mul_add_mod, Nat.mod_eq_of_lt (by omega)]

/-- Bits of the high mask `2^32 - 2^k`: set exactly on `[k, 32)`. -/
theorem testBit_highMask (k i : Nat) (hk : k ≤ 32) :
    (2 ^ 32 - 2 ^ k).testBit i = (decide (k ≤ i) && decide (i < 32)) := by
  have hmask : 2 ^ 32 - 2 ^ k = 2 ^ k * (2 ^ (32 - k) - 1) := by
    rw [Nat.mul_sub, Nat.mul_one, ← pow_add]
    rw [show k + (32 - k) = 32 by omega]
  rw [hmask, Nat.testBit_mul_pow_two, Nat.testBit_two_pow_sub_one]
  rcases Nat.lt_or_ge i k with hik | hik
  · simp [Nat.not_le.mpr hik, Nat.lt_of_lt_of_le hik hk]
  · simp [hik]
    omega

/-- `network_int` in closed form: the address with its low `32 - plen`
bits cleared. -/
theorem netAddr_eq (ip plen : Nat) (hip : ip < 2 ^ 32) (h : plen ≤ 32) :
    netAddr ip plen = 2 ^ (32 - plen) * (ip / 2 ^ (32 - plen)) := by
  unfold netAddr
  rw [maskOf_eq _ h]
  apply Nat.eq_of_testBit_eq
  intro i
  rw [Nat.testBit_and, testBit_highMask _ _ (by omega), ← Nat.shiftRight_eq_div_pow,
    Nat.testBit_mul_pow_two, Nat.testBit_shiftRight]
  rcases Nat.lt_or_ge i (32 - plen) with hik | hik
  · simp [Nat.not_le.mpr hik]
  · rcases Nat.lt_or_ge i 32 with hi32 | hi32
    · simp [hik, hi32]
    · have hz : ip.testBit i = false :=
        Nat.testBit_lt_two_pow (Nat.lt_of_lt_of_le hip (Nat.pow_le_pow_right (by norm_num) hi32))
      simp [hik, Nat.not_lt.mpr hi32, hz]

/-- The inverted mask is the low `32 - plen` ones. -/
theorem notMask_eq (plen : Nat) (h : plen ≤ 32) :
    u32max ^^^ maskOf plen = 2 ^ (32 - plen) - 1 := by
  rw [maskOf_eq _ h]
  apply Nat.eq_of_testBit_eq
  intro i
  rw [Nat.testBit_xor, testBit_highMask _ _ (by omega), Nat.testBit_two_pow_sub_one]
  have hmax : u32max.testBit i = decide (i < 32) := by
    show (2 ^ 32 - 1).testBit i = _
    rw [Nat.testBit_two_pow_sub_one]
  rw [hmax]
  rcases Nat.lt_or_ge i (32 - plen) with hik | hik
  · simp [Nat.not_le.mpr hik, hik]
    omega
  · rcases Nat.lt_or_ge i 32 with hi32 | hi32
    · simp [hik, hi32, Nat.not_lt.mpr hik]
    · simp [Nat.not_lt.mpr hi32]
      omega

/-- `broadcast_int` in closed form: network plus the low ones. -/
theorem bcastAddr_eq (ip plen : Nat) (hip : ip < 2 ^ 32) (h : plen ≤ 32) :
    bcastAddr ip plen =
      2 ^ (32 - plen) * (ip / 2 ^ (32 - plen)) + (2 ^ (32 - plen) - 1) := by
  unfold bcastAddr
  rw [netAddr_eq ip plen hip h, notMask_eq plen h]
  exact (Nat.mul_add_lt_is_or (by
    have : 1 ≤ 2 ^ (32 - plen) := Nat.one_le_two_pow
    omega) _).symm

/-- The network address is bounded by the input address. -/
theorem netAddr_le (ip plen : Nat) (hip : ip < 2 ^ 32) (h : plen ≤ 32) :
    netAddr ip plen ≤ ip := by
  rw [netAddr_eq ip plen hip h, Nat.mul_comm]
  exact Nat.div_mul_le_self ip (2 ^ (32 - plen))

/-- The broadcast address stays below `2^32`. -/
theorem bcastAddr_lt (ip plen : Nat) (hip : ip < 2 ^ 32) (h : plen ≤ 32) :
    bcastAddr ip plen < 2 ^ 32 := by
  rw [bcastAddr_eq ip plen hip h]
  have h1 : 1 ≤ 2 ^ (32 - plen) := Nat.one_le_two_pow
  have hq : ip / 2 ^ (32 - plen) < 2 ^ plen := by
    rw [Nat.div_lt_iff_lt_mul (by omega)]
    calc ip < 2 ^ 32 := hip
    _ = 2 ^ plen * 2 ^ (32 - plen) := by rw [← pow_add, show plen + (32 - plen) = 32 by omega]
  have hmul : 2 ^ (32 - plen) * (ip / 2 ^ (32 - plen)) + 2 ^ (32 - plen) ≤ 2 ^ 32 := by
    have : 2 ^ (32 - plen) * (ip / 2 ^ (32 - plen) + 1) ≤ 2 ^ (32 - plen) * 2 ^ plen :=
      Nat.mul_le_mul_left _ (by omega)
    rw [Nat.mul_add, Nat.mul_one] at this
    calc 2 ^ (32 - plen) * (ip / 2 ^ (32 - plen)) + 2 ^ (32 - plen)
        ≤ 2 ^ (32 - plen) * 2 ^ plen := this
    _ = 2 ^ 32 := by rw [← pow_add, show 32 - plen + plen = 32 by omega]
  omega

set_option maxRecDepth 4096 in
/-- The decimal rendering of an octet never contains a dot. -/
theorem octet_repr_no_dot : ∀ m : Fin 256, '.' ∉ (toString m.val).data := by
  decide

set_option maxRecDepth 4096 in
/-- The decimal rendering of an octet parses back to its value. -/
theorem octet_repr_parse : ∀ m : Fin 256, parseNatDigits (toString m.val).data = some m.val := by
  decide

/-- Octet rendering is injective on `0…255`. -/
theorem octet_repr_inj (a b : Nat) (ha : a ≤ 255) (hb : b ≤ 255)
    (h : (toString a).data = (toString b).data) : a = b := by
  have h1 : parseNatDigits (toString a).data = some a := octet_repr_parse ⟨a, by omega⟩
  have h2 : parseNatDigits (toString b).data = some b := octet_repr_parse ⟨b, by omega⟩
  rw [h, h2] at h1
  exact (Option.some.inj h1).symm

/-- Equality of dot-separated concatenations with dot-free left parts
forces equality of the parts. -/
theorem append_dot_inj (l1 : List Char) : ∀ l2 r1 r2 : List Char,
    l1 ++ '.' :: r1 = l2 ++ '.' :: r2 → '.' ∉ l1 → '.' ∉ l2 →
    l1 = l2 ∧ r1 = r2 := by
  induction l1 with
  | nil =>
    intro l2 r1 r2 h h1 h2
    cases l2 with
    | nil => simpa using h
    | cons c cs =>
      simp only [List.nil_append, List.cons_append, List.cons.injEq] at h
      rcases h with ⟨hc, -⟩
      subst hc
      simp at h2
  | cons c cs ih =>
    intro l2 r1 r2 h h1 h2
    cases l2 with
    | nil =>
      simp only [List.cons_append, List.nil_append, List.cons.injEq] at h
      rcases h with ⟨hc, -⟩
      subst hc
      simp at h1
    | cons c2 cs2 =>
      simp only [List.cons_append, List.cons.injEq] at h
      rcases h with ⟨hc, hrest⟩
      subst hc
      have h1' : '.' ∉ cs := fun hx => h1 (List.mem_cons_of_mem _ hx)
      have h2' : '.' ∉ cs2 := fun hx => h2 (List.mem_cons_of_mem _ hx)
      obtain ⟨e1, e2⟩ := ih cs2 r1 r2 hrest h1' h2'
      exact ⟨by rw [e1], e2⟩

/-- The character data of a rendered dotted quad. -/
theorem ipToString4_data (a b c d : Nat) :
    (ipToString4 a b c d).data =
      (toString a).data ++ '.' :: ((toString b).data ++ '.' ::
        ((toString c).data ++ '.' :: (toString d).data)) := by
  simp [ipToString4, String.data_append, show ("." : String).data = ['.'] from rfl]

/-- Dotted-quad rendering is injective on octet quadruples. -/
theorem ipToString4_inj (a b c d a2 b2 c2 d2 : Nat)
    (ha : a ≤ 255) (hb : b ≤ 255) (hc : c ≤ 255) (hd : d ≤ 255)
    (ha2 : a2 ≤ 255) (hb2 : b2 ≤ 255) (hc2 : c2 ≤ 255) (hd2 : d2 ≤ 255)
    (h : ipToString4 a b c d = ipToString4 a2 b2 c2 d2) :
    a = a2 ∧ b = b2 ∧ c = c2 ∧ d = d2 := by
  have hdata := congrArg String.data h
  rw [ipToString4_data, ipToString4_data] at hdata
  have nd : ∀ m : Nat, m ≤ 255 → '.' ∉ (toString m).data := fun m hm =>
    octet_repr_no_dot ⟨m, by omega⟩
  obtain ⟨e1, hdata⟩ := append_dot_inj _ _ _ _ hdata (nd a ha) (nd a2 ha2)
  obtain ⟨e2, hdata⟩ := append_dot_inj _ _ _ _ hdata (nd b hb) (nd b2 hb2)
  obtain ⟨e3, e4⟩ := append_dot_inj _ _ _ _ hdata (nd c hc) (nd c2 hc2)
  exact ⟨octet_repr_inj a a2 ha ha2 e1, octet_repr_inj b b2 hb hb2 e2,
    octet_repr_inj c c2 hc hc2 e3, octet_repr_inj d d2 hd hd2 (by rw [e4])⟩

/-- `u32` rendering as a dotted quad is injective below `2^32`. -/
theorem ipToString_inj (m n : Nat) (hm : m < 2 ^ 32) (hn : n < 2 ^ 32)
    (h : ipToString m = ipToString n) : m = n := by
  unfold ipToString at h
  have hb : ∀ x : Nat, x % 256 ≤ 255 := fun x => by omega
  obtain ⟨e1, e2, e3, e4⟩ := ipToString4_inj _ _ _ _ _ _ _ _
    (hb _) (hb _) (hb _) (hb _) (hb _) (hb _) (hb _) (hb _) h
  have p24 : (2:Nat) ^ 24 = 16777216 := by norm_num
  have p16 : (2:Nat) ^ 16 = 65536 := by norm_num
  have p8 : (2:Nat) ^ 8 = 256 := by norm_num
  have p32 : (2:Nat) ^ 32 = 4294967296 := by norm_num
  rw [p24] at e1
  rw [p16] at e2
  rw [p8] at e3
  rw [p32] at hm hn
  omega

/-- A parsed octet is at most 255. -/
theorem parseOctet_le (l : List Char) (v : Nat) (h : parseOctet l = some v) : v ≤ 255 := by
  unfold parseOctet at h
  split at h
  · exact absurd h (by simp)
  · split at h
    · split at h
      · exact absurd h (by simp)
      · dsimp only at h
        split at h
        · cases h
          assumption
        · exact absurd h (by simp)
    · exact absurd h (by simp)

/-- The `u32` value of a parsed dotted quad is below `2^32`. -/
theorem ipv4FromStr_lt (l : List Char) (a b c d : Nat)
    (h : ipv4FromStr l = some (a, b, c, d)) : ipVal a b c d < 2 ^ 32 := by
  unfold ipv4FromStr at h
  split at h
  · split at h
    · rename_i h1 h2 h3 h4
      cases h
      have b1 := parseOctet_le _ _ h1
      have b2 := parseOctet_le _ _ h2
      have b3 := parseOctet_le _ _ h3
      have b4 := parseOctet_le _ _ h4
      unfold ipVal
      have p32 : (2:Nat) ^ 32 = 4294967296 := by norm_num
      rw [p32]
      omega
    · exact absurd h (by simp)
  · exact absurd h (by simp)

/-- A parsed CIDR pair is bounded, and `parse_cidr` proceeds to its
arithmetic core on it. -/
theorem cidrParse_inv (s : String) (ip plen : Nat)
    (hp : cidrParse s = some (ip, plen)) :
    parse_cidr s = cidrHostsCore ip plen ∧ ip < 2 ^ 32 ∧ plen ≤ 32 := by
  unfold cidrParse at hp
  unfold parse_cidr
  rcases hs : splitChar '/' s.data with _ | ⟨c1, _ | ⟨c2, _ | ⟨c3, tl⟩⟩⟩
  · rw [hs] at hp; simp at hp
  · rw [hs] at hp; simp at hp
  · rw [hs] at hp
    dsimp only at hp ⊢
    rcases h1 : ipv4FromStr c1 with _ | ⟨a, b, c, d⟩
    · rw [h1] at hp
      simp at hp
    · rw [h1] at hp
      dsimp only at hp ⊢
      rcases h2 : parseU8 c2 with _ | n
      · rw [h2] at hp
        simp at hp
      · rw [h2] at hp
        dsimp only at hp ⊢
        by_cases hn : n ≤ 32
        · rw [if_pos hn] at hp
          simp only [Option.some.injEq, Prod.mk.injEq] at hp
          obtain ⟨hip, hplen⟩ := hp
          subst hip
          subst hplen
          exact ⟨by rw [if_neg (by omega)], ipv4FromStr_lt _ _ _ _ _ h1, hn⟩
        · rw [if_neg hn] at hp; simp at hp
  · rw [hs] at hp; simp at hp

/-- For prefixes up to 30 the arithmetic core succeeds with the host list
from network+1 through broadcast-1. -/
theorem cidrHostsCore_ok (ip plen : Nat) (hip : ip < 2 ^ 32) (h : plen ≤ 30) :
    cidrHostsCore ip plen =
      .ok ((List.range (2 ^ (32 - plen) - 2)).map
        (fun i => ipToString (netAddr ip plen + 1 + i))) := by
  have h4 : 4 ≤ 2 ^ (32 - plen) := by
    calc (4:Nat) = 2 ^ 2 := rfl
    _ ≤ 2 ^ (32 - plen) := Nat.pow_le_pow_right (by norm_num) (by omega)
  have hn := netAddr_eq ip plen hip (by omega)
  have hb := bcastAddr_eq ip plen hip (by omega)
  have hnet_ne : netAddr ip plen ≠ u32max := by
    rw [hn]
    intro he
    have hdvd : (2:Nat) ∣ 2 ^ (32 - plen) := dvd_pow_self 2 (by omega)
    have h2 : (2:Nat) ∣ u32max := he ▸ hdvd.mul_right _
    have hu : u32max = 4294967295 := rfl
    omega
  have hbne : bcastAddr ip plen ≠ 0 := by
    rw [hb]
    omega
  have hguard : ¬(bcastAddr ip plen - 1 ≤ netAddr ip plen) := by
    rw [hb, hn]
    omega
  have hcnt : bcastAddr ip plen - (netAddr ip plen + 1) = 2 ^ (32 - plen) - 2 := by
    rw [hb, hn]
    omega
  simp only [cidrHostsCore]
  rw [if_neg hnet_ne, if_neg hbne, if_neg hguard]
  unfold pushHosts
  rw [hcnt, pushHostsAux_eq, List.map_map]
  rfl

/-- Claim C1: for every CIDR segment whose address and prefix parse with
prefix at most 30, expansion returns exactly the `2^(32-N) - 2` addresses
from network+1 through broadcast-1 in increasing numeric order, and
neither the network address nor the broadcast address appears in the
resulting list. -/
theorem cidr_usable_hosts (s : String) (ip plen : Nat)
    (hp : cidrParse s = some (ip, plen)) (h30 : plen ≤ 30) :
    parse_cidr s =
      .ok ((List.range (2 ^ (32 - plen) - 2)).map
        (fun i => ipToString (netAddr ip plen + 1 + i))) ∧
    ((List.range (2 ^ (32 - plen) - 2)).map
        (fun i => ipToString (netAddr ip plen + 1 + i))).length = 2 ^ (32 - plen) - 2 ∧
    ipToString (netAddr ip plen) ∉
      (List.range (2 ^ (32 - plen) - 2)).map
        (fun i => ipToString (netAddr ip plen + 1 + i)) ∧
    ipToString (bcastAddr ip plen) ∉
      (List.range (2 ^ (32 - plen) - 2)).map
        (fun i => ipToString (netAddr ip plen + 1 + i)) := by
  obtain ⟨hpc, hip, -⟩ := cidrParse_inv s ip plen hp
  have h4 : 4 ≤ 2 ^ (32 - plen) := by
    calc (4:Nat) = 2 ^ 2 := rfl
    _ ≤ 2 ^ (32 - plen) := Nat.pow_le_pow_right (by norm_num) (by omega)
  have hn := netAddr_eq ip plen hip (by omega)
  have hb := bcastAddr_eq ip plen hip (by omega)
  have hblt := bcastAddr_lt ip plen hip (by omega)
  have hnlt : netAddr ip plen < 2 ^ 32 :=
    Nat.lt_of_le_of_lt (netAddr_le ip plen hip (by omega)) hip
  refine ⟨by rw [hpc, cidrHostsCore_ok ip plen hip h30], by simp, ?_, ?_⟩
  · intro hmem
    simp only [List.mem_map, List.mem_range] at hmem
    obtain ⟨i, hi, he⟩ := hmem
    have hlt : netAddr ip plen + 1 + i < 2 ^ 32 := by
      rw [hn]
      rw [hb] at hblt
      omega
    have := ipToString_inj _ _ hlt hnlt he
    omega
  · intro hmem
    simp only [List.mem_map, List.mem_range] at hmem
    obtain ⟨i, hi, he⟩ := hmem
    have hlt : netAddr ip plen + 1 + i < 2 ^ 32 := by
      rw [hn]
      rw [hb] at hblt
      omega
    have := ipToString_inj _ _ hlt hblt he
    rw [hn, hb] at this
    omega

/-- Witness for C1 at the concrete segment `"10.0.0.0/29"`. -/
theorem cidr_usable_hosts_witness :
    parse_cidr "10.0.0.0/29" =
      .ok ((List.range (2 ^ (32 - 29) - 2)).map
        (fun i => ipToString (netAddr 167772160 29 + 1 + i))) ∧
    ((List.range (2 ^ (32 - 29) - 2)).map
        (fun i => ipToString (netAddr 167772160 29 + 1 + i))).length = 2 ^ (32 - 29) - 2 ∧
    ipToString (netAddr 167772160 29) ∉
      (List.range (2 ^ (32 - 29) - 2)).map
        (fun i => ipToString (netAddr 167772160 29 + 1 + i)) ∧
    ipToString (bcastAddr 167772160 29) ∉
      (List.range (2 ^ (32 - 29) - 2)).map
        (fun i => ipToString (netAddr 167772160 29 + 1 + i)) :=
  cidr_usable_hosts "10.0.0.0/29" 167772160 29 (by decide) (by decide)

/-- The arithmetic core panics exactly when the network is `u32::MAX` or
the broadcast is zero. -/
theorem cidrHostsCore_panic_iff (ip plen : Nat) :
    (cidrHostsCore ip plen = .error .panicAddOverflow ∨
      cidrHostsCore ip plen = .error .panicSubOverflow) ↔
    (netAddr ip plen = u32max ∨ bcastAddr ip plen = 0) := by
  simp only [cidrHostsCore]
  by_cases h1 : netAddr ip plen = u32max
  · simp [h1]
  · rw [if_neg h1]
    by_cases h2 : bcastAddr ip plen = 0
    · simp [h1, h2]
    · rw [if_neg h2]
      by_cases h3 : bcastAddr ip plen - 1 ≤ netAddr ip plen
      · simp [h1, h2, h3]
      · rw [if_neg h3]
        simp [h1, h2]

/-- Claim C3 (amended): `parse_cidr` always terminates with a list or an
error value, and its `u32` arithmetic overflows (a debug-build panic;
release builds wrap) exactly on the CIDR inputs whose parsed pair has
network `u32::MAX` (`network_int + 1` overflows, input
`255.255.255.255/32`) or broadcast `0` (`broadcast_int - 1` underflows,
input `0.0.0.0/32`); on every other input no overflow occurs. -/
theorem parse_cidr_panic_iff (s : String) :
    (parse_cidr s = .error .panicAddOverflow ∨
      parse_cidr s = .error .panicSubOverflow) ↔
    (∃ p : Nat × Nat, cidrParse s = some p ∧
      (netAddr p.1 p.2 = u32max ∨ bcastAddr p.1 p.2 = 0)) := by
  unfold parse_cidr cidrParse
  rcases hs : splitChar '/' s.data with _ | ⟨c1, _ | ⟨c2, _ | ⟨c3, tl⟩⟩⟩
  · simp
  · simp
  · dsimp only
    rcases h1 : ipv4FromStr c1 with _ | ⟨a, b, c, d⟩
    · simp
    · dsimp only
      rcases h2 : parseU8 c2 with _ | n
      · simp
      · dsimp only
        by_cases hn : n ≤ 32
        · rw [if_neg (by omega : ¬ 32 < n), if_pos hn]
          rw [cidrHostsCore_panic_iff]
          constructor
          · intro h
            exact ⟨(ipVal a b c d, n), rfl, h⟩
          · rintro ⟨p, hpe, hor⟩
            obtain rfl : (ipVal a b c d, n) = p := Option.some.inj hpe
            exact hor
        · rw [if_pos (by omega : 32 < n), if_neg hn]
          simp
  · simp

/-- Claim C3 counterexample: `parse_targets` on `"0.0.0.0/32"` reaches the
guard's `broadcast_int - 1` with broadcast `0`, so the subtraction
underflows instead of being well-defined (debug builds panic; release
builds wrap and return the empty-set error). -/
theorem parse_targets_underflow_counterexample :
    parse_targets "0.0.0.0/32" = .error .panicSubOverflow :=
  rfl

/-- Splitting never yields an empty list of segments. -/
theorem splitChar_ne_nil (sep : Char) (l : List Char) : splitChar sep l ≠ [] := by
  cases l with
  | nil => simp [splitChar]
  | cons c cs =>
    simp only [splitChar]
    split
    · simp
    · split <;> simp

/-- Rust `split` over a concatenation with an explicit separator between
the parts: the segments of the whole are the segments of the parts. -/
theorem splitChar_append (sep : Char) (l1 l2 : List Char) :
    splitChar sep (l1 ++ sep :: l2) = splitChar sep l1 ++ splitChar sep l2 := by
  induction l1 with
  | nil => simp [splitChar]
  | cons c cs ih =>
    by_cases hc : c = sep
    · subst hc
      simp [splitChar, ih]
    · simp only [List.cons_append, List.append_eq, splitChar, if_neg hc]
      rw [ih]
      cases h : splitChar sep cs with
      | nil => exact absurd h (splitChar_ne_nil sep cs)
      | cons s rest => simp

/-- The comma segments of `s1 ++ "," ++ s2` are those of `s1` then those
of `s2`. -/
theorem segmentsOf_append (s1 s2 : String) :
    segmentsOf (s1 ++ "," ++ s2) = segmentsOf s1 ++ segmentsOf s2 := by
  unfold segmentsOf
  have hd : (s1 ++ "," ++ s2).data = s1.data ++ ',' :: s2.data := by
    simp [String.data_append]
  rw [hd, splitChar_append, List.map_append, List.filter_append]

/-- Segment expansion distributes over appended segment lists when both
halves succeed. -/
theorem expandAll_append (xs ys : List (List Char)) (a b : List String)
    (hx : expandAll xs = .ok a) (hy : expandAll ys = .ok b) :
    expandAll (xs ++ ys) = .ok (a ++ b) := by
  induction xs generalizing a with
  | nil =>
    simp only [expandAll] at hx
    cases hx
    simpa using hy
  | cons t ts ih =>
    simp only [expandAll, List.cons_append, List.append_eq] at hx ⊢
    split at hx
    · exact absurd hx (by simp)
    · rename_i l hseg
      split at hx
      · exact absurd hx (by simp)
      · rename_i rest hrest
        rw [ih rest hrest]
        cases hx
        simp

/-- Inversion of a successful `parse_targets`: the segment expansions all
succeeded and the concatenation is nonempty. -/
theorem parse_targets_ok_inv (s : String) (l : List String)
    (h : parse_targets s = .ok l) :
    expandAll (segmentsOf s) = .ok l ∧ l ≠ [] := by
  unfold parse_targets at h
  split at h
  · exact absurd h (by simp)
  · rename_i a heq
    split at h
    · exact absurd h (by simp)
    · rename_i ha
      cases h
      exact ⟨heq, ha⟩

/-- Claim C6 counterexample: on the specification `""` every trimmed
non-empty segment (there are none) expands successfully and the
concatenation of the expansions is `[]`, yet `parse_targets` returns the
empty-set error rather than that concatenation. -/
theorem parse_targets_empty_counterexample :
    expandAll (segmentsOf "") = .ok [] ∧
    parse_targets "" = .error .noValidIp :=
  ⟨rfl, rfl⟩

/-- Claim C6 (amended): when every trimmed non-empty segment expands
successfully and the concatenation of the expansions is non-empty,
`parse_targets` returns exactly that concatenation, in left-to-right
segment order with duplicates preserved; consequently parsing
`s1 ++ "," ++ s2` returns the result for `s1` appended with the result
for `s2` whenever both succeed.  (With zero non-empty segments the code
instead fails with the empty-set error.) -/
theorem parse_targets_concat :
    (∀ (s : String) (ls : List String),
        expandAll (segmentsOf s) = .ok ls → ls ≠ [] → parse_targets s = .ok ls)
    ∧ (∀ (s1 s2 : String) (l1 l2 : List String),
        parse_targets s1 = .ok l1 → parse_targets s2 = .ok l2 →
        parse_targets (s1 ++ "," ++ s2) = .ok (l1 ++ l2)) := by
  have mk : ∀ (s : String) (ls : List String),
      expandAll (segmentsOf s) = .ok ls → ls ≠ [] → parse_targets s = .ok ls := by
    intro s ls h hne
    unfold parse_targets
    rw [h]
    show (if ls = [] then Except.error TargetErr.noValidIp else Except.ok ls) = Except.ok ls
    rw [if_neg hne]
  refine ⟨mk, ?_⟩
  intro s1 s2 l1 l2 h1 h2
  obtain ⟨e1, ne1⟩ := parse_targets_ok_inv s1 l1 h1
  obtain ⟨e2, _⟩ := parse_targets_ok_inv s2 l2 h2
  apply mk
  · rw [segmentsOf_append]
    exact expandAll_append _ _ _ _ e1 e2
  · simp [ne1]

/-- Witness for C6 at `"10.0.0.1" ++ "," ++ "192.168.1.0/30"`. -/
theorem parse_targets_concat_witness :
    parse_targets ("10.0.0.1" ++ "," ++ "192.168.1.0/30") =
      .ok (["10.0.0.1"] ++ ["192.168.1.1", "192.168.1.2"]) :=
  parse_targets_concat.2 "10.0.0.1" "192.168.1.0/30" ["10.0.0.1"]
    ["192.168.1.1", "192.168.1.2"] rfl rfl

/-- A literal passing the source's nonnegativity filter has nonnegative
rational value. -/
theorem DecLit.nonneg_toRat (d : DecLit) (h : d.nonneg = true) : 0 ≤ d.toRat := by
  unfold DecLit.nonneg at h
  unfold DecLit.toRat
  simp only [decide_eq_true_eq] at h
  rcases h with h | h
  · rw [h]
    simp only [Bool.false_eq_true, if_false, one_mul]
    positivity
  · rw [h]
    simp

/-- Claim C7: a latency returned by `extract_response_time` is always
nonnegative (negative parsed values are discarded), absence of any time
marker yields no latency, and on the documented probe line
`time=1.23 ms` the extracted latency is exactly `1.23`. -/
theorem extract_response_time_spec :
    (∀ (s : String) (d : DecLit), extract_response_time s = some d → 0 ≤ d.toRat)
    ∧ (∀ s : String, firstMarkerEnd (lowerStr s.data) timeMarkers = none →
        extract_response_time s = none)
    ∧ (extract_response_time "64 bytes from 192.168.1.1: icmp_seq=1 ttl=64 time=1.23 ms").map
        DecLit.toRat = some (123 / 100) := by
  refine ⟨?_, ?_, ?_⟩
  · intro s d h
    simp only [extract_response_time] at h
    split at h
    · exact absurd h (by simp)
    · split at h
      · exact absurd h (by simp)
      · split at h
        · rename_i t ht
          split at h
          · cases h
            exact DecLit.nonneg_toRat _ (by assumption)
          · exact absurd h (by simp)
        · exact absurd h (by simp)
  · intro s hm
    simp only [extract_response_time, hm]
  · have he : extract_response_time "64 bytes from 192.168.1.1: icmp_seq=1 ttl=64 time=1.23 ms"
        = some ⟨false, 123, 2⟩ := rfl
    rw [he]
    norm_num [DecLit.toRat]

/-- Witness for C7: applying the nonnegativity part at a concrete Windows
probe line and the no-marker part at marker-free output. -/
theorem extract_response_time_spec_witness :
    0 ≤ DecLit.toRat ⟨false, 15, 0⟩ ∧
    extract_response_time "Request timeout for icmp_seq 1" = none :=
  ⟨extract_response_time_spec.1 "Reply from 192.168.1.1: bytes=32 time=15ms TTL=64"
      ⟨false, 15, 0⟩ rfl,
    extract_response_time_spec.2.1 "Request timeout for icmp_seq 1" rfl⟩

/-- Claim C2 (code-bug evidence): on the syntactically valid prefix-32
segment `0.0.0.0/32` the broadcast address is `0`, so the guard's
`broadcast_int - 1` underflows `u32` and the code never reaches the
no-usable-hosts error the claim requires (debug builds panic; release
builds wrap, skip the guard and return an empty list, after which
`parse_targets` reports the generic empty-set error instead). -/
theorem cidr_guard_underflows_on_zero :
    bcastAddr (ipVal 0 0 0 0) 32 = 0 ∧
    parse_cidr "0.0.0.0/32" = .error .panicSubOverflow :=
  ⟨rfl, rfl⟩

/-- One-step unfolding of the retry loop. -/
theorem pingLoopF_succ (plat : Platform) (ip : String) (o : Nat → AttemptOutcome)
    (fuel attempt : Nat) :
    pingLoopF plat ip o (fuel + 1) attempt =
      pingAttempt plat ip (o attempt) fuel (pingLoopF plat ip o fuel (attempt + 1)) :=
  rfl

/-- A failed-classification attempt comes from utility output the
classifier rejects. -/
theorem attemptKind_fail_elim (plat : Platform) (a : AttemptOutcome)
    (h : attemptKind plat a = .fail) :
    ∃ s e, a = .output s e ∧ classifyOutput plat s e = false := by
  cases a with
  | spawnError => exact absurd h (by simp [attemptKind])
  | output s e =>
    refine ⟨s, e, rfl, ?_⟩
    cases hc : classifyOutput plat s e
    · rfl
    · simp [attemptKind, hc] at h

/-- A successful attempt comes from utility output the classifier accepts. -/
theorem attemptKind_ok_elim (plat : Platform) (a : AttemptOutcome)
    (h : attemptKind plat a = .ok) :
    ∃ s e, a = .output s e ∧ classifyOutput plat s e = true := by
  cases a with
  | spawnError => exact absurd h (by simp [attemptKind])
  | output s e =>
    refine ⟨s, e, rfl, ?_⟩
    cases hc : classifyOutput plat s e
    · simp [attemptKind, hc] at h
    · rfl

/-- A spawn-classified attempt is the spawn error. -/
theorem attemptKind_spawn_elim (plat : Platform) (a : AttemptOutcome)
    (h : attemptKind plat a = .spawnErr) : a = .spawnError := by
  cases a with
  | spawnError => rfl
  | output s e => cases hc : classifyOutput plat s e <;> simp [attemptKind, hc] at h

/-- A successful attempt ends the loop with one invocation and the
extracted latency. -/
theorem pingLoopF_ok (plat : Platform) (ip : String) (o : Nat → AttemptOutcome)
    (fuel attempt : Nat) (s : String) (e : Bool)
    (ho : o attempt = .output s e) (hc : classifyOutput plat s e = true) :
    pingLoopF plat ip o (fuel + 1) attempt =
      (PingResult.success ip (extract_response_time s), [.invoke]) := by
  rw [pingLoopF_succ, ho]
  simp [pingAttempt, hc]

/-- A spawn error ends the loop immediately with one invocation. -/
theorem pingLoopF_spawn (plat : Platform) (ip : String) (o : Nat → AttemptOutcome)
    (fuel attempt : Nat) (ho : o attempt = .spawnError) :
    pingLoopF plat ip o (fuel + 1) attempt = (PingResult.failure ip, [.invoke]) := by
  rw [pingLoopF_succ, ho]
  rfl

/-- A failed final attempt ends the loop with one invocation and no
trailing backoff. -/
theorem pingLoopF_fail_last (plat : Platform) (ip : String) (o : Nat → AttemptOutcome)
    (attempt : Nat) (s : String) (e : Bool)
    (ho : o attempt = .output s e) (hc : classifyOutput plat s e = false) :
    pingLoopF plat ip o (0 + 1) attempt = (PingResult.failure ip, [.invoke]) := by
  rw [pingLoopF_succ, ho]
  simp [pingAttempt, hc]

/-- A failed non-final attempt invokes, sleeps the backoff, and retries. -/
theorem pingLoopF_fail_step (plat : Platform) (ip : String) (o : Nat → AttemptOutcome)
    (f attempt : Nat) (s : String) (e : Bool)
    (ho : o attempt = .output s e) (hc : classifyOutput plat s e = false) :
    pingLoopF plat ip o (f + 1 + 1) attempt =
      ((pingLoopF plat ip o (f + 1) (attempt + 1)).1,
        .invoke :: .sleep (backoffMs plat) ::
          (pingLoopF plat ip o (f + 1) (attempt + 1)).2) := by
  rw [pingLoopF_succ, ho]
  simp [pingAttempt, hc]

/-- Invocation counting over traces. -/
theorem countInvoke_nil : countInvoke [] = 0 :=
  rfl

/-- An `invoke` event adds one to the invocation count. -/
theorem countInvoke_invoke (ev : List PingEvent) :
    countInvoke (.invoke :: ev) = countInvoke ev + 1 := by
  simp [countInvoke]

/-- A `sleep` event does not change the invocation count. -/
theorem countInvoke_sleep (ms : Nat) (ev : List PingEvent) :
    countInvoke (.sleep ms :: ev) = countInvoke ev := by
  simp [countInvoke]

/-- Claim C8: with `maxAttempts = 3`, the outcome sequence
`[fail, fail, success]` performs exactly 3 invocations and returns success
(generally, a first success at attempt `k ≤ 3` performs exactly `k`
invocations), and `[fail, fail, fail]` performs exactly 3 invocations and
returns failure, with a backoff only between a failed non-final attempt
and the next attempt and no trailing backoff after the last attempt (the
event traces end in `invoke`). -/
theorem retry_policy (plat : Platform) (ip : String) (o : Nat → AttemptOutcome) :
    (attemptKind plat (o 1) = .fail → attemptKind plat (o 2) = .fail →
      attemptKind plat (o 3) = .ok →
      (ping_ip_async plat ip 3 o).1.is_success = true ∧
      (ping_ip_async plat ip 3 o).2 =
        [.invoke, .sleep (backoffMs plat), .invoke, .sleep (backoffMs plat), .invoke])
    ∧ (∀ k : Nat, 1 ≤ k → k ≤ 3 →
        (∀ j : Nat, j < k → 1 ≤ j → attemptKind plat (o j) = .fail) →
        attemptKind plat (o k) = .ok →
        (ping_ip_async plat ip 3 o).1.is_success = true ∧
        countInvoke (ping_ip_async plat ip 3 o).2 = k)
    ∧ (attemptKind plat (o 1) = .fail → attemptKind plat (o 2) = .fail →
        attemptKind plat (o 3) = .fail →
        (ping_ip_async plat ip 3 o).1 = PingResult.failure ip ∧
        (ping_ip_async plat ip 3 o).2 =
          [.invoke, .sleep (backoffMs plat), .invoke, .sleep (backoffMs plat), .invoke]) := by
  refine ⟨?_, ?_, ?_⟩
  · intro h1 h2 h3
    obtain ⟨s1, e1, ho1, hc1⟩ := attemptKind_fail_elim _ _ h1
    obtain ⟨s2, e2, ho2, hc2⟩ := attemptKind_fail_elim _ _ h2
    obtain ⟨s3, e3, ho3, hc3⟩ := attemptKind_ok_elim _ _ h3
    have e : ping_ip_async plat ip 3 o =
        (PingResult.success ip (extract_response_time s3),
          [.invoke, .sleep (backoffMs plat), .invoke, .sleep (backoffMs plat), .invoke]) := by
      show pingLoopF plat ip o (0 + 1 + 1 + 1) 1 = _
      rw [pingLoopF_fail_step _ _ _ _ _ _ _ ho1 hc1,
        pingLoopF_fail_step _ _ _ _ _ _ _ ho2 hc2,
        pingLoopF_ok _ _ _ _ _ _ _ ho3 hc3]
    rw [e]
    exact ⟨rfl, rfl⟩
  · intro k hk1 hk3 hfail hok
    interval_cases k
    · obtain ⟨s1, e1, ho1, hc1⟩ := attemptKind_ok_elim _ _ hok
      have e : ping_ip_async plat ip 3 o =
          (PingResult.success ip (extract_response_time s1), [.invoke]) := by
        show pingLoopF plat ip o (0 + 1 + 1 + 1) 1 = _
        rw [pingLoopF_ok _ _ _ _ _ _ _ ho1 hc1]
      rw [e]
      exact ⟨rfl, by simp [countInvoke_invoke, countInvoke_nil]⟩
    · obtain ⟨s1, e1, ho1, hc1⟩ := attemptKind_fail_elim _ _ (hfail 1 (by omega) (by omega))
      obtain ⟨s2, e2, ho2, hc2⟩ := attemptKind_ok_elim _ _ hok
      have e : ping_ip_async plat ip 3 o =
          (PingResult.success ip (extract_response_time s2),
            [.invoke, .sleep (backoffMs plat), .invoke]) := by
        show pingLoopF plat ip o (0 + 1 + 1 + 1) 1 = _
        rw [pingLoopF_fail_step _ _ _ _ _ _ _ ho1 hc1,
          pingLoopF_ok _ _ _ _ _ _ _ ho2 hc2]
      rw [e]
      exact ⟨rfl, by simp [countInvoke_invoke, countInvoke_sleep, countInvoke_nil]⟩
    · obtain ⟨s1, e1, ho1, hc1⟩ := attemptKind_fail_elim _ _ (hfail 1 (by omega) (by omega))
      obtain ⟨s2, e2, ho2, hc2⟩ := attemptKind_fail_elim _ _ (hfail 2 (by omega) (by omega))
      obtain ⟨s3, e3, ho3, hc3⟩ := attemptKind_ok_elim _ _ hok
      have e : ping_ip_async plat ip 3 o =
          (PingResult.success ip (extract_response_time s3),
            [.invoke, .sleep (backoffMs plat), .invoke, .sleep (backoffMs plat), .invoke]) := by
        show pingLoopF plat ip o (0 + 1 + 1 + 1) 1 = _
        rw [pingLoopF_fail_step _ _ _ _ _ _ _ ho1 hc1,
          pingLoopF_fail_step _ _ _ _ _ _ _ ho2 hc2,
          pingLoopF_ok _ _ _ _ _ _ _ ho3 hc3]
      rw [e]
      exact ⟨rfl, by simp [countInvoke_invoke, countInvoke_sleep, countInvoke_nil]⟩
  · intro h1 h2 h3
    obtain ⟨s1, e1, ho1, hc1⟩ := attemptKind_fail_elim _ _ h1
    obtain ⟨s2, e2, ho2, hc2⟩ := attemptKind_fail_elim _ _ h2
    obtain ⟨s3, e3, ho3, hc3⟩ := attemptKind_fail_elim _ _ h3
    have e : ping_ip_async plat ip 3 o =
        (PingResult.failure ip,
          [.invoke, .sleep (backoffMs plat), .invoke, .sleep (backoffMs plat), .invoke]) := by
      show pingLoopF plat ip o (0 + 1 + 1 + 1) 1 = _
      rw [pingLoopF_fail_step _ _ _ _ _ _ _ ho1 hc1,
        pingLoopF_fail_step _ _ _ _ _ _ _ ho2 hc2,
        pingLoopF_fail_last _ _ _ _ _ _ ho3 hc3]
    rw [e]
    exact ⟨rfl, rfl⟩

/-- Witness for C8 at a concrete oracle failing twice then succeeding. -/
theorem retry_policy_witness :
    (ping_ip_async .linux "10.0.0.1" 3 (fun i => .output "" (decide (i = 3)))).1.is_success
        = true ∧
    (ping_ip_async .linux "10.0.0.1" 3 (fun i => .output "" (decide (i = 3)))).2 =
      [.invoke, .sleep (backoffMs .linux), .invoke, .sleep (backoffMs .linux), .invoke] :=
  (retry_policy .linux "10.0.0.1" (fun i => .output "" (decide (i = 3)))).1
    (by decide) (by decide) (by decide)

/-- Generalised form of C9 over the loop: if classification fails from
`attempt` up to `k - 1` and invocation `k` is a spawn error within the
attempt window, the loop returns failure having invoked exactly
`k + 1 - attempt` times. -/
theorem pingLoopF_spawn_general (plat : Platform) (ip : String) (o : Nat → AttemptOutcome) :
    ∀ fuel attempt k : Nat, attempt ≤ k → k < attempt + fuel →
      (∀ j : Nat, attempt ≤ j → j < k → attemptKind plat (o j) = .fail) →
      attemptKind plat (o k) = .spawnErr →
      (pingLoopF plat ip o fuel attempt).1 = PingResult.failure ip ∧
      countInvoke (pingLoopF plat ip o fuel attempt).2 = k + 1 - attempt := by
  intro fuel
  induction fuel with
  | zero => intro attempt k h1 h2 _ _; exact absurd h2 (by omega)
  | succ f ih =>
    intro attempt k h1 h2 hfail herr
    rcases Nat.eq_or_lt_of_le h1 with heq | hlt
    · subst heq
      have ho := attemptKind_spawn_elim _ _ herr
      rw [pingLoopF_spawn _ _ _ _ _ ho]
      refine ⟨rfl, ?_⟩
      rw [countInvoke_invoke, countInvoke_nil]
      omega
    · obtain ⟨s, e, ho, hc⟩ := attemptKind_fail_elim _ _ (hfail attempt le_rfl hlt)
      cases f with
      | zero => exact absurd h2 (by omega)
      | succ g =>
        rw [pingLoopF_fail_step _ _ _ _ _ _ _ ho hc]
        obtain ⟨ih1, ih2⟩ := ih (attempt + 1) k hlt (by omega)
          (fun j hj1 hj2 => hfail j (by omega) hj2) herr
        refine ⟨ih1, ?_⟩
        rw [countInvoke_invoke, countInvoke_sleep, ih2]
        omega

/-- Claim C9: if classification fails on the attempts before `k` and the
`k`-th invocation of the external utility itself fails to spawn
(`k ≤ maxAttempts`), the executor returns an overall failure outcome
immediately, having performed exactly `k` invocations (the remaining
attempts are not consumed); the failure is an ordinary `PingResult`, not
an error of the run. -/
theorem spawn_error_immediate (plat : Platform) (ip : String) (count : Nat)
    (o : Nat → AttemptOutcome) (k : Nat) (h1 : 1 ≤ k) (h2 : k ≤ count)
    (hfail : ∀ j : Nat, j < k → 1 ≤ j → attemptKind plat (o j) = .fail)
    (herr : attemptKind plat (o k) = .spawnErr) :
    (ping_ip_async plat ip count o).1 = PingResult.failure ip ∧
    countInvoke (ping_ip_async plat ip count o).2 = k := by
  have h := pingLoopF_spawn_general plat ip o count 1 k h1 (by omega)
    (fun j hj1 hj2 => hfail j hj2 hj1) herr
  rw [show k + 1 - 1 = k from by omega] at h
  exact h

/-- Witness for C9: spawn error on attempt 2 of 3 ends the probe after
exactly 2 invocations. -/
theorem spawn_error_immediate_witness :
    (ping_ip_async .linux "10.0.0.1" 3
        (fun i => if i = 2 then .spawnError else .output "" false)).1 =
      PingResult.failure "10.0.0.1" ∧
    countInvoke (ping_ip_async .linux "10.0.0.1" 3
        (fun i => if i = 2 then .spawnError else .output "" false)).2 = 2 :=
  spawn_error_immediate .linux "10.0.0.1" 3
    (fun i => if i = 2 then .spawnError else .output "" false) 2
    (by decide) (by decide) (by decide) (by decide)

/-- Claim C10: in every reachable scheduler state the number of in-flight
probe tasks never exceeds the concurrency limit, and tasks are conserved
(`notStarted + inFlight + completed` stays the address count: the ticket
acquired before each probe is released exactly once, on completion). -/
theorem sched_inflight_le_limit (limit total : Nat) (s : SchedState)
    (h : SchedReach limit total s) :
    s.inFlight ≤ limit ∧ s.notStarted + s.inFlight + s.completed = total := by
  induction h with
  | init => exact ⟨Nat.zero_le _, rfl⟩
  | step hr hstep ih =>
    obtain ⟨ih1, ih2⟩ := ih
    cases hstep with
    | start n f c hf =>
      dsimp only at ih1 ih2 ⊢
      exact ⟨by omega, by omega⟩
    | finish n f c =>
      dsimp only at ih1 ih2 ⊢
      exact ⟨by omega, by omega⟩

/-- Witness for C10: a concrete reachable state of a run with ceiling 2
over 3 addresses (two admissions, one completion). -/
theorem sched_inflight_le_limit_witness :
    (⟨1, 1, 1⟩ : SchedState).inFlight ≤ 2 ∧
    (⟨1, 1, 1⟩ : SchedState).notStarted + (⟨1, 1, 1⟩ : SchedState).inFlight +
      (⟨1, 1, 1⟩ : SchedState).completed = 3 :=
  sched_inflight_le_limit 2 3 ⟨1, 1, 1⟩
    (.step (.step (.step .init (.start 2 0 0 (by decide))) (.start 1 1 0 (by decide)))
      (.finish 1 1 0))

end Gxr
